import Mathlib

/-!
# Verification of the 2dpool angle-model builder tools

Shallow embedding, over `ℚ` and plain lists, of the model-builder scripts
`tools/build_angle_model.py`, `tools/build_angle_model_simple.py`,
`tools/build_angle_model_piecewise.py` and `tools/build_angle_model_split.py`,
together with proofs of the spec's testable properties about them.

Python floats are modelled as rationals (`ℚ`), with an explicit `nan` /
`inf` marker type where the scripts can actually encounter non-finite
values; Python lists become Lean lists.
-/

namespace PoolModel

/-! ## Polynomial feature term enumeration

`build_polynomial_features` (build_angle_model.py lines 60-92 and
build_angle_model_simple.py lines 62-92) produces the term list
`['1']` followed, for each degree `d = 1, …, degree`, by one term per
element of `itertools.combinations_with_replacement(range(n_features), d)`.
We model a term by the (non-decreasing) list of feature indices that the
Python code multiplies together; the constant term is the empty list. -/

/-- `cwrFrom k d i` is the lexicographically ordered list of the
non-decreasing `d`-tuples over `{i, …, k-1}`.  `cwrFrom k d 0` is exactly
the iteration order of Python's
`itertools.combinations_with_replacement(range(k), d)` as consumed by
`build_polynomial_features`. -/
def cwrFrom (k : Nat) : Nat → Nat → List (List Nat)
  | 0, _ => [[]]
  | d + 1, i => (List.range' i (k - i)).flatMap (fun j => (cwrFrom k d j).map (j :: ·))

/-- The full term list of `build_polynomial_features` for `k` features and
maximum degree `degree`: the constant term (`term_names.append('1')`,
modelled as `[]`) followed, for `d in range(1, degree + 1)`, by all
combinations-with-replacement of size `d` (build_angle_model.py lines 76-89). -/
def build_polynomial_terms (k degree : Nat) : List (List Nat) :=
  [] :: (List.range' 1 degree).flatMap (fun d => cwrFrom k d 0)

lemma sum_multichoose_range' (d : Nat) :
    ∀ (m i k : Nat), k - i = m →
      ((List.range' i m).map (fun j => Nat.multichoose (k - j) d)).sum
        = Nat.multichoose m (d + 1) := by
  intro m
  induction m with
  | zero => intro i k _; simp [Nat.multichoose_zero_succ]
  | succ m ih =>
      intro i k hk
      have h1 : k - (i + 1) = m := by omega
      have h2 : k - i = m + 1 := hk
      simp only [List.range'_succ, List.map_cons, List.sum_cons, ih (i + 1) k h1, h2]
      rw [Nat.multichoose_succ_succ]
      omega

lemma length_cwrFrom (k : Nat) :
    ∀ (d i : Nat), (cwrFrom k d i).length = Nat.multichoose (k - i) d := by
  intro d
  induction d with
  | zero => intro i; simp [cwrFrom, Nat.multichoose_zero_right]
  | succ d ih =>
      intro i
      simp only [cwrFrom, List.length_flatMap, List.map_map]
      have : ((List.range' i (k - i)).map fun j => ((cwrFrom k d j).map (j :: ·)).length)
          = (List.range' i (k - i)).map fun j => Nat.multichoose (k - j) d := by
        refine List.map_congr_left fun j _ => ?_
        rw [List.length_map, ih j]
      rw [show (List.length ∘ fun j => (cwrFrom k d j).map (j :: ·))
            = fun j => ((cwrFrom k d j).map (j :: ·)).length from rfl] at *
      rw [this, sum_multichoose_range' d (k - i) i k rfl]

lemma length_build_polynomial_terms (k degree : Nat) :
    (build_polynomial_terms k degree).length = (k + degree).choose degree := by
  induction degree with
  | zero => simp [build_polynomial_terms]
  | succ D ih =>
      have hsplit : List.range' 1 (D + 1) = List.range' 1 D ++ [1 + D] := by
        rw [List.range'_concat]
        congr 2
        omega
      have hlen : (build_polynomial_terms k (D + 1)).length
          = (build_polynomial_terms k D).length + Nat.multichoose k (1 + D) := by
        simp only [build_polynomial_terms, hsplit, List.flatMap_append, List.length_cons,
          List.length_append, List.flatMap_cons, List.flatMap_nil, List.append_nil,
          length_cwrFrom]
        simp
        try omega
      rw [hlen, ih, Nat.multichoose_eq]
      have h1 : 1 + D = D + 1 := by omega
      rw [h1]
      have h2 : k + (D + 1) - 1 = k + D := by omega
      rw [h2, ← Nat.choose_succ_succ]
      congr 1
      try omega

lemma length_mem_cwrFrom {k : Nat} :
    ∀ {d i : Nat} {l : List Nat}, l ∈ cwrFrom k d i → l.length = d := by
  intro d
  induction d with
  | zero => intro i l hl; simp [cwrFrom] at hl; simp [hl]
  | succ d ih =>
      intro i l hl
      simp only [cwrFrom, List.mem_flatMap, List.mem_map] at hl
      obtain ⟨j, -, t, ht, rfl⟩ := hl
      simp [ih ht]

lemma bounds_mem_cwrFrom {k : Nat} :
    ∀ {d i : Nat} {l : List Nat}, l ∈ cwrFrom k d i → ∀ x ∈ l, i ≤ x ∧ x < k := by
  intro d
  induction d with
  | zero => intro i l hl; simp [cwrFrom] at hl; simp [hl]
  | succ d ih =>
      intro i l hl x hx
      simp only [cwrFrom, List.mem_flatMap, List.mem_map] at hl
      obtain ⟨j, hj, t, ht, rfl⟩ := hl
      rw [List.mem_range'] at hj
      rcases List.mem_cons.mp hx with rfl | hx
      · omega
      · have := ih ht x hx
        omega

lemma chain_mem_cwrFrom {k : Nat} :
    ∀ {d i : Nat} {l : List Nat}, l ∈ cwrFrom k d i → l.Chain' (· ≤ ·) := by
  intro d
  induction d with
  | zero => intro i l hl; simp [cwrFrom] at hl; simp [hl]
  | succ d ih =>
      intro i l hl
      simp only [cwrFrom, List.mem_flatMap, List.mem_map] at hl
      obtain ⟨j, -, t, ht, rfl⟩ := hl
      refine List.chain'_cons'.mpr ⟨?_, ih ht⟩
      intro y hy
      exact ((bounds_mem_cwrFrom ht y (List.mem_of_mem_head? hy)).1)

lemma head_mem_cwrFrom {k d i : Nat} {l : List Nat}
    (hl : l ∈ cwrFrom k (d + 1) i) : ∃ j t, l = j :: t := by
  simp only [cwrFrom, List.mem_flatMap, List.mem_map] at hl
  obtain ⟨j, -, t, -, rfl⟩ := hl
  exact ⟨j, t, rfl⟩

lemma nodup_cwrFrom {k : Nat} : ∀ (d i : Nat), (cwrFrom k d i).Nodup := by
  intro d
  induction d with
  | zero => intro i; simp [cwrFrom]
  | succ d ih =>
      intro i
      rw [cwrFrom, List.nodup_flatMap]
      constructor
      · intro j _
        exact (ih j).map (fun a b h => (List.cons.injEq _ _ _ _ ▸ h).2)
      · refine List.Pairwise.imp ?_ (List.nodup_range' i (k - i))
        intro a b hab
        intro S hS1 hS2
        simp only [List.mem_map] at hS1 hS2
        obtain ⟨t1, -, rfl⟩ := hS1
        obtain ⟨t2, -, heq⟩ := hS2
        exact hab (by injection heq with h _; omega)

lemma nodup_build_polynomial_terms (k degree : Nat) :
    (build_polynomial_terms k degree).Nodup := by
  rw [build_polynomial_terms, List.nodup_cons]
  constructor
  · intro hmem
    simp only [List.mem_flatMap] at hmem
    obtain ⟨d, hd, hmem⟩ := hmem
    rw [List.mem_range'] at hd
    have := length_mem_cwrFrom hmem
    simp at this
    omega
  · rw [List.nodup_flatMap]
    constructor
    · intro d _; exact nodup_cwrFrom d 0
    · refine List.Pairwise.imp ?_ (List.nodup_range' 1 degree)
      intro a b hab
      intro S hS1 hS2
      have h1 := length_mem_cwrFrom hS1
      have h2 := length_mem_cwrFrom hS2
      exact hab (h1 ▸ h2)

lemma cwrFrom_one (k i : Nat) :
    cwrFrom k 1 i = (List.range' i (k - i)).map (fun j => [j]) := by
  simp only [cwrFrom]
  exact (List.map_eq_flatMap _ _).symm

lemma map_length_build_polynomial_terms (k degree : Nat) :
    (build_polynomial_terms k degree).map List.length
      = (List.range (degree + 1)).flatMap (fun e => List.replicate (Nat.multichoose k e) e) := by
  have hblock : ∀ d, (cwrFrom k d 0).map List.length
      = List.replicate (Nat.multichoose k d) d := by
    intro d
    refine List.eq_replicate_iff.mpr ⟨?_, ?_⟩
    · rw [List.length_map, length_cwrFrom]; simp
    · intro b hb
      simp only [List.mem_map] at hb
      obtain ⟨t, ht, rfl⟩ := hb
      exact length_mem_cwrFrom ht
  have hrange : List.range (degree + 1) = 0 :: List.range' 1 degree := by
    rw [List.range_eq_range']
    rfl
  rw [hrange]
  simp only [build_polynomial_terms, List.map_cons, List.map_flatMap, List.flatMap_cons]
  rw [Nat.multichoose_zero_right]
  simp only [List.replicate_one]
  congr 1
  refine List.flatMap_congr ?_
  intro d _
  exact hblock d

lemma take_build_polynomial_terms {k degree : Nat} (h : 1 ≤ degree) :
    (build_polynomial_terms k degree).take (k + 1)
      = [] :: (List.range k).map (fun j => [j]) := by
  obtain ⟨D, rfl⟩ : ∃ D, degree = D + 1 := ⟨degree - 1, by omega⟩
  have hsplit : List.range' 1 (D + 1) = 1 :: List.range' 2 D := by
    rw [List.range'_succ]
  rw [build_polynomial_terms, hsplit]
  simp only [List.flatMap_cons, List.take_succ_cons]
  rw [cwrFrom_one]
  have hk : k - 0 = k := by omega
  rw [show List.range' 0 (k - 0) = List.range k by rw [hk, List.range_eq_range']]
  congr 1
  rw [List.take_append_of_le_length (by simp)]
  simp

/-- C1: for `k` input features and maximum degree `d`,
`build_polynomial_features` produces exactly `C(k+d, d)` terms with no
duplicates, in the canonical order: the constant term (the empty index
multiset) first, then for each degree `e = 1, …, d`, in increasing order of
`e`, exactly `multichoose k e` terms of degree `e`; each term is a
non-decreasing (combination-with-replacement) list of feature indices below
`k`, and for `d ≥ 1` the terms right after the constant are the degree-1
terms in feature-declaration order. -/
theorem C1_polynomial_term_enumeration (k degree : Nat) :
    (build_polynomial_terms k degree).length = (k + degree).choose degree ∧
    (build_polynomial_terms k degree).Nodup ∧
    (build_polynomial_terms k degree).map List.length
      = (List.range (degree + 1)).flatMap
          (fun e => List.replicate (Nat.multichoose k e) e) ∧
    (∀ t ∈ build_polynomial_terms k degree,
      t.Chain' (· ≤ ·) ∧ ∀ j ∈ t, j < k) ∧
    (1 ≤ degree →
      (build_polynomial_terms k degree).take (k + 1)
        = [] :: (List.range k).map (fun j => [j])) := by
  refine ⟨length_build_polynomial_terms k degree,
          nodup_build_polynomial_terms k degree,
          map_length_build_polynomial_terms k degree, ?_, ?_⟩
  · intro t ht
    rcases List.mem_cons.mp ht with rfl | ht
    · simp
    · simp only [List.mem_flatMap] at ht
      obtain ⟨d, -, ht⟩ := ht
      exact ⟨chain_mem_cwrFrom ht, fun j hj => (bounds_mem_cwrFrom ht j hj).2⟩
  · intro h; exact take_build_polynomial_terms h

/-- Witness for C1 at `k = 3`, `degree = 2` (the default configuration of
`build_angle_model.py`): the inner hypotheses are discharged at concrete
inputs. -/
theorem C1_polynomial_term_enumeration_witness :
    (build_polynomial_terms 3 2).take 4 = [] :: (List.range 3).map (fun j => [j]) ∧
    List.Chain' (· ≤ ·) [0, 1] :=
  ⟨(C1_polynomial_term_enumeration 3 2).2.2.2.2 (by decide),
   ((C1_polynomial_term_enumeration 3 2).2.2.2.1 [0, 1] (by decide)).1⟩

/-! ## R-squared computation

`fit_regression` computes, in both flat variants,
`r_squared = 1 - (ss_res / ss_tot) if ss_tot > 0 else 0`
(build_angle_model.py lines 99-103, build_angle_model_simple.py lines
173-177), while the piecewise script computes `r2 = 1.0 - ss_res / ss_tot`
with no guard (build_angle_model_piecewise.py lines 101-103). -/

/-- `ss_res = sum((y[i] - y_pred[i])**2)` over paired entries. -/
def ssRes (y yPred : List ℚ) : ℚ :=
  ((y.zip yPred).map (fun p => (p.1 - p.2) ^ 2)).sum

/-- `y_mean = sum(y) / len(y)`. -/
def yMean (y : List ℚ) : ℚ := y.sum / y.length

/-- `ss_tot = sum((y[i] - y_mean)**2)`. -/
def ssTot (y : List ℚ) : ℚ := (y.map (fun v => (v - yMean y) ^ 2)).sum

/-- The guarded R² of both flat variants:
`r_squared = 1 - (ss_res / ss_tot) if ss_tot > 0 else 0`. -/
def r_squared_flat (y yPred : List ℚ) : ℚ :=
  if 0 < ssTot y then 1 - ssRes y yPred / ssTot y else 0

/-- The unguarded R² of build_angle_model_piecewise.py line 103:
`r2 = 1.0 - ss_res / ss_tot`, with **no** `ss_tot > 0` guard.  In numpy a
zero `ss_tot` makes this a 0/0 (`nan`) or `x/0` (`-inf`) computation; in
the `ℚ` model, where `x / 0 = 0`, the result is then `1`.  Either way the
result is not the value `0` the spec requires. -/
def r2_piecewise (err pred : List ℚ) : ℚ :=
  1 - ssRes err pred / ssTot err

lemma ssTot_of_const {y : List ℚ} (h : ∀ a ∈ y, ∀ b ∈ y, a = b) : ssTot y = 0 := by
  cases y with
  | nil => simp [ssTot]
  | cons a t =>
      have hmem : ∀ v ∈ a :: t, v = a := fun v hv =>
        h v hv a (List.mem_cons_self a t)
      have hsum : (a :: t).sum = (a :: t).length • a :=
        List.sum_eq_card_nsmul _ a hmem
      have hlen : ((a :: t).length : ℚ) ≠ 0 := by
        simp only [List.length_cons, Nat.cast_add, Nat.cast_one]
        positivity
      have hmean : yMean (a :: t) = a := by
        rw [yMean, hsum]
        rw [nsmul_eq_mul]
        field_simp
      rw [ssTot]
      refine List.sum_eq_zero ?_
      intro x hx
      simp only [List.mem_map] at hx
      obtain ⟨v, hv, rfl⟩ := hx
      rw [hmean, hmem v hv]
      ring

/-- C4 (amended): in the two flat variants R² is `1 - SSres/SStot` guarded
by `SStot > 0`, and equals `0` whenever `SStot ≤ 0` — in particular whenever
all targets are identical — so the flat computation never divides by zero.
(The piecewise variant is *not* guarded; see the counterexample.) -/
theorem C4_r_squared_guarded (y yPred : List ℚ) :
    (0 < ssTot y → r_squared_flat y yPred = 1 - ssRes y yPred / ssTot y) ∧
    (ssTot y ≤ 0 → r_squared_flat y yPred = 0) ∧
    ((∀ a ∈ y, ∀ b ∈ y, a = b) → ssTot y = 0 ∧ r_squared_flat y yPred = 0) := by
  refine ⟨fun h => by rw [r_squared_flat, if_pos h],
          fun h => by rw [r_squared_flat, if_neg (by linarith)], ?_⟩
  intro h
  have h0 := ssTot_of_const h
  exact ⟨h0, by rw [r_squared_flat, if_neg (by rw [h0]; exact lt_irrefl 0)]⟩

/-- Witness for C4 at concrete data: two identical targets `[2, 2]` give
`SStot = 0` and a guarded R² of `0`. -/
theorem C4_r_squared_guarded_witness :
    ssTot [(2 : ℚ), 2] = 0 ∧ r_squared_flat [(2 : ℚ), 2] [1, 3] = 0 :=
  (C4_r_squared_guarded [(2 : ℚ), 2] [1, 3]).2.2 (by decide)

/-- Counterexample to C4 as stated: the piecewise variant
(build_angle_model_piecewise.py line 103) computes `1 - SSres/SStot` with no
guard.  With all targets identical (`err = [1, 1]`) we get `SStot = 0`, yet
the computed R² is not `0` — the code divides by zero (in numpy this is a
`nan`; in the `ℚ` model the quotient collapses to `0` and R² evaluates to
`1`). -/
theorem C4_counterexample :
    ssTot [(1 : ℚ), 1] = 0 ∧ r2_piecewise [(1 : ℚ), 1] [0, 0] ≠ 0 := by
  have h0 : ssTot [(1 : ℚ), 1] = 0 := by
    norm_num [ssTot, yMean]
  refine ⟨h0, ?_⟩
  rw [r2_piecewise, h0]
  norm_num

/-! ## Record extraction and validation

`build_angle_model_split.py` `main` (lines 303-316) keeps a row iff the
three required fields are present and `float()` succeeds on each; NaN and
infinities *pass* `float()` and are retained.  `build_angle_model.py`
`extract_features` (lines 31-58) only checks key presence and performs no
numeric conversion at all. -/

/-- A JSON value as seen by the extraction code.  `num` is a finite number
(numeric strings, which Python's `float()` also accepts, are modelled the
same way); `nan`/`inf`/`ninf` are non-finite numeric values on which
`float()` succeeds; `nonNumeric` is any value on which `float()` raises
`TypeError`/`ValueError`. -/
inductive PyVal where
  | num (q : ℚ)
  | nan
  | inf
  | ninf
  | nonNumeric
deriving DecidableEq, Repr

/-- The result of a successful Python `float()` call. -/
inductive PyFloat where
  | fin (q : ℚ)
  | nan
  | inf
  | ninf
deriving DecidableEq, Repr

/-- `float(v)`: raises (`none`) only on non-numeric values; NaN and
infinities convert successfully. -/
def pyFloat : PyVal → Option PyFloat
  | .num q => some (.fin q)
  | .nan => some .nan
  | .inf => some .inf
  | .ninf => some .ninf
  | .nonNumeric => none

/-- `math.isfinite` / the property the spec's invariant talks about. -/
def PyFloat.isFinite : PyFloat → Bool
  | .fin _ => true
  | _ => false

/-- A raw input record: a JSON object, field name to value. -/
abbrev RawRecord := List (String × PyVal)

/-- A retained sample of the split variant (`X_all` row plus target). -/
structure SampleS where
  cut : PyFloat
  power : PyFloat
  target : PyFloat
deriving DecidableEq, Repr

/-- One iteration of the row loop of build_angle_model_split.py `main`
(lines 304-312): `continue` when a required key is absent, then `continue`
when `float()` raises on any of the three values; otherwise the converted
values are kept unchanged (no finiteness check). -/
def convertRowSplit (r : RawRecord) : Option SampleS :=
  (r.lookup "cutAngle").bind fun vc =>
  (r.lookup "power").bind fun vp =>
  (r.lookup "angleError").bind fun vy =>
  (pyFloat vc).bind fun c =>
  (pyFloat vp).bind fun p =>
  (pyFloat vy).map fun y => ⟨c, p, y⟩

/-- The row-extraction loop of build_angle_model_split.py `main`
(lines 303-316). -/
def extract_rows_split (rows : List RawRecord) : List SampleS :=
  rows.filterMap convertRowSplit

/-- One iteration of `extract_features` of build_angle_model.py
(lines 36-46): a shot is skipped only when one of the four keys is missing;
the raw values are appended with no numeric conversion or finiteness check
whatsoever. -/
def convertRowFlat (r : RawRecord) : Option (PyVal × PyVal × PyVal × PyVal) :=
  (r.lookup "cutAngle").bind fun a =>
  (r.lookup "spinY").bind fun s =>
  (r.lookup "power").bind fun p =>
  (r.lookup "angleError").map fun e => (a, s, p, e)

/-- `extract_features` of build_angle_model.py (lines 31-58), at the level
of the retained rows. -/
def extract_features_flat (rows : List RawRecord) :
    List (PyVal × PyVal × PyVal × PyVal) :=
  rows.filterMap convertRowFlat

/-- C3 (amended): in the split variant every retained sample comes from a
record whose three required fields are present and on which `float()`
succeeds, the sample storing exactly the converted values — presence and
`float()`-convertibility are the *only* filters, with no finiteness check;
and in the flat variant a record with all four keys present is retained
as-is, with no numeric check at all. -/
theorem C3_extraction_behavior :
    (∀ (rows : List RawRecord) (s : SampleS), s ∈ extract_rows_split rows →
      ∃ r ∈ rows, ∃ vc vp vy,
        r.lookup "cutAngle" = some vc ∧ r.lookup "power" = some vp ∧
        r.lookup "angleError" = some vy ∧
        pyFloat vc = some s.cut ∧ pyFloat vp = some s.power ∧
        pyFloat vy = some s.target) ∧
    (∀ (rows : List RawRecord) (r : RawRecord) (a sv p e : PyVal), r ∈ rows →
      r.lookup "cutAngle" = some a → r.lookup "spinY" = some sv →
      r.lookup "power" = some p → r.lookup "angleError" = some e →
      (a, sv, p, e) ∈ extract_features_flat rows) := by
  constructor
  · intro rows s hs
    rw [extract_rows_split, List.mem_filterMap] at hs
    obtain ⟨r, hr, heq⟩ := hs
    rw [convertRowSplit] at heq
    refine ⟨r, hr, ?_⟩
    cases h1 : r.lookup "cutAngle" with
    | none => rw [h1] at heq; simp at heq
    | some vc =>
        rw [h1] at heq
        cases h2 : r.lookup "power" with
        | none => rw [h2] at heq; simp at heq
        | some vp =>
            rw [h2] at heq
            cases h3 : r.lookup "angleError" with
            | none => rw [h3] at heq; simp at heq
            | some vy =>
                rw [h3] at heq
                simp only [Option.some_bind] at heq
                refine ⟨vc, vp, vy, rfl, rfl, rfl, ?_⟩
                cases h4 : pyFloat vc with
                | none => rw [h4] at heq; simp at heq
                | some c =>
                    rw [h4] at heq
                    cases h5 : pyFloat vp with
                    | none => rw [h5] at heq; simp at heq
                    | some p =>
                        rw [h5] at heq
                        cases h6 : pyFloat vy with
                        | none => rw [h6] at heq; simp at heq
                        | some y =>
                            rw [h6] at heq
                            have heq' : SampleS.mk c p y = s := by
                              simpa using heq
                            subst heq'
                            exact ⟨rfl, rfl, rfl⟩
  · intro rows r a sv p e hr h1 h2 h3 h4
    rw [extract_features_flat, List.mem_filterMap]
    refine ⟨r, hr, ?_⟩
    rw [convertRowFlat, h1, h2, h3, h4]
    rfl

/-- A record whose `power` field holds `float('nan')`. -/
def nanRow : RawRecord :=
  [("cutAngle", .num 10), ("power", .nan), ("angleError", .num 1)]

/-- A record whose `cutAngle` field holds a non-numeric value. -/
def badRowFlat : RawRecord :=
  [("cutAngle", .nonNumeric), ("spinY", .num 0), ("power", .num 1),
   ("angleError", .num 2)]

/-- Witness for C3 (amended) at `nanRow` and at a record carrying a
non-numeric value: both hypotheses are discharged concretely. -/
theorem C3_extraction_behavior_witness :
    (∃ r ∈ [nanRow], ∃ vc vp vy,
      r.lookup "cutAngle" = some vc ∧ r.lookup "power" = some vp ∧
      r.lookup "angleError" = some vy ∧
      pyFloat vc = some (SampleS.mk (.fin 10) .nan (.fin 1)).cut ∧
      pyFloat vp = some (SampleS.mk (.fin 10) .nan (.fin 1)).power ∧
      pyFloat vy = some (SampleS.mk (.fin 10) .nan (.fin 1)).target) ∧
    (PyVal.nonNumeric, PyVal.num 0, PyVal.num 1, PyVal.num 2) ∈
      extract_features_flat [badRowFlat] :=
  ⟨C3_extraction_behavior.1 [nanRow] ⟨.fin 10, .nan, .fin 1⟩ (by decide),
   C3_extraction_behavior.2 [badRowFlat] badRowFlat PyVal.nonNumeric
     (PyVal.num 0) (PyVal.num 1) (PyVal.num 2) (by decide)
     (by decide) (by decide) (by decide) (by decide)⟩

/-- Counterexample to C3 as stated: the record `nanRow` has the non-finite
value `float('nan')` in the required field `power`, yet the split variant's
extraction retains it (one sample, whose `power` is not finite) instead of
dropping it. -/
theorem C3_counterexample :
    (extract_rows_split [nanRow]).length = 1 ∧
    ∀ s ∈ extract_rows_split [nanRow], s.power.isFinite = false := by
  decide

/-! ## Gaussian elimination with partial pivoting

`solve_linear_system` of build_angle_model_simple.py (lines 114-152).
Every `/` the Python code executes is logged in a divisor list, so that the
claim "no division by a quantity of magnitude below 1e-12 ever occurs" can
be stated about the code's actual divisions. -/

/-- The singularity threshold `1e-12`. -/
def eps12 : ℚ := 1 / 10 ^ 12

/-- `aug[i][j]` with Python-style structure access (out-of-range reads,
which the Python code never performs for square inputs, default to 0). -/
def getEntry (m : List (List ℚ)) (i j : Nat) : ℚ := (m.getD i []).getD j 0

/-- The pivot search (lines 125-129): `max_row = col`, then for
`row in range(col+1, n)`, update `max_row` whenever
`abs(aug[row][col]) > abs(aug[max_row][col])` (strict, so the first
maximal row wins). -/
def pivotRow (aug : List (List ℚ)) (col n : Nat) : Nat :=
  (List.range' (col + 1) (n - (col + 1))).foldl
    (fun best row =>
      if |getEntry aug row col| > |getEntry aug best col| then row else best) col

/-- `aug[col], aug[max_row] = aug[max_row], aug[col]` (line 130). -/
def swapRows (m : List (List ℚ)) (i j : Nat) : List (List ℚ) :=
  let ri := m.getD i []
  let rj := m.getD j []
  (m.set i rj).set j ri

/-- The inner update `aug[row][j] -= factor * aug[col][j]` for
`j in range(col, n + 1)` (lines 138-139). -/
def elimRow (pivotVals target : List ℚ) (factor : ℚ) (col n : Nat) : List ℚ :=
  target.mapIdx fun j x =>
    if col ≤ j ∧ j ≤ n then x - factor * pivotVals.getD j 0 else x

/-- The elimination loop over `row in range(col+1, n)` (lines 136-139),
with `factor = aug[row][col] / aug[col][col]`. -/
def elimBelow (aug : List (List ℚ)) (col n : Nat) : List (List ℚ) :=
  (List.range' (col + 1) (n - (col + 1))).foldl
    (fun m row =>
      let factor := getEntry m row col / getEntry m col col
      m.set row (elimRow (m.getD col []) (m.getD row []) factor col n)) aug

/-- One column of forward elimination (lines 124-139): pivot search, swap,
then either `continue` on a near-zero pivot (`abs < 1e-12`, no division) or
eliminate below, logging one divisor (the pivot) per computed `factor`. -/
def forwardStep (aug : List (List ℚ)) (col n : Nat) : List (List ℚ) × List ℚ :=
  let aug1 := swapRows aug col (pivotRow aug col n)
  if |getEntry aug1 col col| < eps12 then (aug1, [])
  else (elimBelow aug1 col n,
        (List.range' (col + 1) (n - (col + 1))).map fun _ => getEntry aug1 col col)

/-- Forward elimination over `col in range(n)` (line 124), accumulating the
divisor log. -/
def forwardElim (aug : List (List ℚ)) (n : Nat) : List (List ℚ) × List ℚ :=
  (List.range n).foldl
    (fun acc col =>
      let st := forwardStep acc.1 col n
      (st.1, acc.2 ++ st.2)) (aug, [])

/-- One row of back substitution (lines 143-150): `x[i] = 0` when
`abs(aug[i][i]) < 1e-12`, otherwise
`x[i] = (aug[i][n] - Σ_{j=i+1}^{n-1} aug[i][j] * x[j]) / aug[i][i]`,
logging the divisor.  `xs` holds `[x_{i+1}, …, x_{n-1}]`. -/
def backRow (aug : List (List ℚ)) (n i : Nat) (xs : List ℚ) : ℚ × List ℚ :=
  let piv := getEntry aug i i
  if |piv| < eps12 then (0, [])
  else ((getEntry aug i n -
          ((List.range' (i + 1) (n - (i + 1))).map
            (fun j => getEntry aug i j * xs.getD (j - (i + 1)) 0)).sum) / piv,
        [piv])

/-- Back substitution from the bottom: `backSubAux aug n k` computes
`[x_{n-k}, …, x_{n-1}]` together with the divisor log, matching the loop
`for i in range(n - 1, -1, -1)` (line 143). -/
def backSubAux (aug : List (List ℚ)) (n : Nat) : Nat → List ℚ × List ℚ
  | 0 => ([], [])
  | k + 1 =>
      let prev := backSubAux aug n k
      let r := backRow aug n (n - (k + 1)) prev.1
      (r.1 :: prev.1, r.2 ++ prev.2)

/-- `aug = [row[:] + [b[i]] for i, row in enumerate(A)]` (line 121). -/
def augmented (A : List (List ℚ)) (b : List ℚ) : List (List ℚ) :=
  (A.zip b).map fun rb => rb.1 ++ [rb.2]

/-- `solve_linear_system(A, b)` of build_angle_model_simple.py
(lines 114-152), returning the solution vector together with the list of
every divisor the Python code divides by. -/
def solve_linear_system (A : List (List ℚ)) (b : List ℚ) : List ℚ × List ℚ :=
  let n := A.length
  let fw := forwardElim (augmented A b) n
  let bk := backSubAux fw.1 n n
  (bk.1, fw.2 ++ bk.2)

lemma forwardStep_divisors {aug : List (List ℚ)} {col n : Nat} :
    ∀ d ∈ (forwardStep aug col n).2, eps12 ≤ |d| := by
  intro d hd
  rw [forwardStep] at hd
  by_cases h : |getEntry (swapRows aug col (pivotRow aug col n)) col col| < eps12
  · rw [if_pos h] at hd
    simp at hd
  · rw [if_neg h] at hd
    simp only [List.mem_map] at hd
    obtain ⟨-, -, rfl⟩ := hd
    linarith [not_lt.mp h]

lemma forwardElim_divisors {aug : List (List ℚ)} {n : Nat} :
    ∀ d ∈ (forwardElim aug n).2, eps12 ≤ |d| := by
  rw [forwardElim]
  generalize List.range n = cols
  suffices h : ∀ (cols : List Nat) (acc : List (List ℚ) × List ℚ),
      (∀ d ∈ acc.2, eps12 ≤ |d|) →
      ∀ d ∈ (cols.foldl (fun acc col =>
        let st := forwardStep acc.1 col n
        (st.1, acc.2 ++ st.2)) acc).2, eps12 ≤ |d| by
    exact h cols (aug, []) (by simp)
  intro cols
  induction cols with
  | nil => intro acc hacc; simpa using hacc
  | cons c rest ih =>
      intro acc hacc
      refine ih _ ?_
      intro d hd
      rcases List.mem_append.mp hd with h | h
      · exact hacc d h
      · exact forwardStep_divisors d h

lemma backRow_divisors {aug : List (List ℚ)} {n i : Nat} {xs : List ℚ} :
    ∀ d ∈ (backRow aug n i xs).2, eps12 ≤ |d| := by
  intro d hd
  rw [backRow] at hd
  by_cases h : |getEntry aug i i| < eps12
  · rw [if_pos h] at hd
    simp at hd
  · rw [if_neg h] at hd
    simp only [List.mem_singleton] at hd
    subst hd
    linarith [not_lt.mp h]

lemma backSubAux_divisors {aug : List (List ℚ)} {n : Nat} :
    ∀ (k : Nat), ∀ d ∈ (backSubAux aug n k).2, eps12 ≤ |d| := by
  intro k
  induction k with
  | zero => simp [backSubAux]
  | succ k ih =>
      intro d hd
      rw [backSubAux] at hd
      rcases List.mem_append.mp hd with h | h
      · exact backRow_divisors d h
      · exact ih d h

lemma backSubAux_length {aug : List (List ℚ)} {n : Nat} :
    ∀ (k : Nat), (backSubAux aug n k).1.length = k := by
  intro k
  induction k with
  | zero => simp [backSubAux]
  | succ k ih => simp [backSubAux, ih]

lemma backSubAux_zero_coeff {aug : List (List ℚ)} {n : Nat} :
    ∀ (k : Nat), k ≤ n → ∀ (j : Nat), j < k →
      |getEntry aug (n - k + j) (n - k + j)| < eps12 →
      (backSubAux aug n k).1.getD j 0 = 0 := by
  intro k
  induction k with
  | zero => intro _ j hj; omega
  | succ k ih =>
      intro hk j hj hsmall
      rw [backSubAux]
      cases j with
      | zero =>
          have hidx : n - (k + 1) + 0 = n - (k + 1) := by omega
          rw [hidx] at hsmall
          simp only [List.getD_cons_zero]
          rw [backRow, if_pos hsmall]
      | succ j =>
          simp only [List.getD_cons_succ]
          have hidx : n - (k + 1) + (j + 1) = n - k + j := by omega
          rw [hidx] at hsmall
          exact ih (by omega) j (by omega) hsmall

/-- C5: the Gaussian-elimination solver of build_angle_model_simple.py only
ever divides by quantities of magnitude at least `1e-12` (every pivot used
as a divisor, in forward elimination and in back substitution, passed the
`abs(...) < 1e-12` guard); it is total on every square system, returning
one coefficient per row of `A`; and whenever a back-substitution pivot has
magnitude below `1e-12` the corresponding coefficient is set to `0` instead
of being divided. -/
theorem C5_solver_no_small_division (A : List (List ℚ)) (b : List ℚ) :
    (∀ d ∈ (solve_linear_system A b).2, eps12 ≤ |d|) ∧
    (solve_linear_system A b).1.length = A.length ∧
    (∀ j < A.length,
      |getEntry (forwardElim (augmented A b) A.length).1 j j| < eps12 →
      (solve_linear_system A b).1.getD j 0 = 0) := by
  refine ⟨?_, ?_, ?_⟩
  · intro d hd
    rw [solve_linear_system] at hd
    rcases List.mem_append.mp hd with h | h
    · exact forwardElim_divisors d h
    · exact backSubAux_divisors _ d h
  · rw [solve_linear_system]
    exact backSubAux_length _
  · intro j hj hsmall
    rw [solve_linear_system]
    refine backSubAux_zero_coeff A.length le_rfl j hj ?_
    have hidx : A.length - A.length + j = j := by omega
    rw [hidx]
    exact hsmall

/-- Witness for C5 on concrete 1×1 systems: solving `[[1]] x = [2]` logs the
divisor `1` (bounded below by `1e-12` via the main theorem), and on the
singular system `[[0]] x = [1]` the coefficient is set to `0`. -/
theorem C5_solver_no_small_division_witness :
    eps12 ≤ |(1 : ℚ)| ∧ (solve_linear_system [[0]] [1]).1.getD 0 0 = 0 :=
  ⟨(C5_solver_no_small_division [[1]] [2]).1 1
    (by norm_num [solve_linear_system, forwardElim, forwardStep, pivotRow,
      swapRows, elimBelow, elimRow, backSubAux, backRow, augmented, getEntry,
      eps12, List.range'_zero, List.range_succ, List.range_zero]),
   (C5_solver_no_small_division [[0]] [1]).2.2 0 (by norm_num)
    (by norm_num [forwardElim, forwardStep, pivotRow, swapRows, elimBelow,
      elimRow, augmented, getEntry, eps12, List.range'_zero, List.range_succ,
      List.range_zero])⟩

/-! ## The per-bracket split search

`build_angle_model_split.py` `main` lines 348-366: for
`split in range(SPLIT_MIN, SPLIT_MAX + 1, SPLIT_STEP)` the code fits a
candidate (`fit_piecewise_cutangle`, lines 80-88, returns `None` when
either side of the cut-angle split has fewer than `MIN_SAMPLES_PER_SIDE`
training samples), scores it by held-out RMSE, and keeps the running best
under `best is None or score < best["rmse"]` (strict, so ties keep the
earlier = lower threshold).  The sklearn fit/predict/RMSE pipeline is an
external dependency; it enters the model as an abstract scoring function
`score : ℤ → ℚ` giving the held-out RMSE of the candidate. -/

/-- `SPLIT_MIN` (line 28). -/
def SPLIT_MIN : ℤ := 10

/-- `SPLIT_MAX` (line 29). -/
def SPLIT_MAX : ℤ := 60

/-- `SPLIT_STEP` (line 30). -/
def SPLIT_STEP : ℕ := 1

/-- `MIN_SAMPLES_PER_SIDE` (line 38). -/
def MIN_SAMPLES_PER_SIDE : ℕ := 5

/-- Python's `range(a, b, s)` for a positive step `s`:
`[a, a + s, a + 2s, …)` up to but excluding `b`. -/
def pyRange (a b : ℤ) (s : ℕ) : List ℤ :=
  (List.range (((b - a).toNat + s - 1) / s)).map (fun i : ℕ => a + (s : ℤ) * (i : ℤ))

lemma lt_ceilCount_iff {d s i : ℕ} (hs : 0 < s) :
    i < (d + s - 1) / s ↔ s * i < d := by
  rw [Nat.lt_iff_add_one_le, Nat.le_div_iff_mul_le hs, Nat.add_mul, Nat.one_mul,
    Nat.mul_comm i s]
  generalize s * i = t
  omega

lemma mem_pyRange {a b : ℤ} {s : ℕ} (hs : 0 < s) {c : ℤ} :
    c ∈ pyRange a b s ↔ ∃ i : ℕ, c = a + s * i ∧ c < b := by
  rw [pyRange]
  constructor
  · intro hc
    obtain ⟨i, hi, rfl⟩ := List.mem_map.mp hc
    have hi' : i < ((b - a).toNat + s - 1) / s := List.mem_range.mp hi
    have h1 : s * i < (b - a).toNat := (lt_ceilCount_iff hs).mp hi'
    refine ⟨i, rfl, ?_⟩
    have h2 : ((s * i : ℕ) : ℤ) < ((b - a).toNat : ℤ) := by exact_mod_cast h1
    have h3 : ((b - a).toNat : ℤ) ≤ max (b - a) 0 := by
      rcases le_or_lt (b - a) 0 with h | h
      · simp [Int.toNat_of_nonpos h]
      · rw [Int.toNat_of_nonneg h.le]
        exact le_max_left _ _
    have h4 : ((s * i : ℕ) : ℤ) < max (b - a) 0 := lt_of_lt_of_le h2 h3
    have h5 : (0 : ℤ) ≤ ((s * i : ℕ) : ℤ) := by positivity
    have hgoal : a + ((s * i : ℕ) : ℤ) < b := by
      rcases max_cases (b - a) (0 : ℤ) with ⟨he, -⟩ | ⟨he, -⟩ <;>
        rw [he] at h4 <;> omega
    calc a + (s : ℤ) * i = a + ((s * i : ℕ) : ℤ) := by push_cast; ring
    _ < b := hgoal
  · rintro ⟨i, rfl, hlt⟩
    refine List.mem_map.mpr ⟨i, List.mem_range.mpr ?_, rfl⟩
    rw [lt_ceilCount_iff hs]
    have h2 : a + ((s * i : ℕ) : ℤ) < b := by push_cast; linarith
    have h3 : ((s * i : ℕ) : ℤ) < b - a := by omega
    exact_mod_cast Int.lt_toNat.mpr h3

lemma mem_pyRange_one {lo hi c : ℤ} :
    c ∈ pyRange lo (hi + 1) 1 ↔ lo ≤ c ∧ c ≤ hi := by
  rw [mem_pyRange Nat.one_pos]
  constructor
  · rintro ⟨i, rfl, hlt⟩
    constructor
    · have : (0 : ℤ) ≤ (1 : ℕ) * i := by positivity
      omega
    · omega
  · rintro ⟨hlo, hhi⟩
    refine ⟨(c - lo).toNat, ?_, by omega⟩
    rw [Int.toNat_of_nonneg (by omega)]
    push_cast
    omega

lemma pyRange_pairwise {a b : ℤ} {s : ℕ} (hs : 0 < s) :
    (pyRange a b s).Pairwise (· < ·) := by
  rw [pyRange]
  refine List.Pairwise.map _ ?_ (List.pairwise_lt_range _)
  intro i j hij
  show a + (s : ℤ) * i < a + (s : ℤ) * j
  have : (s : ℤ) * i < (s : ℤ) * j := by
    have hs' : (0 : ℤ) < s := by exact_mod_cast hs
    exact mul_lt_mul_of_pos_left (by exact_mod_cast hij) hs'
  omega

/-- The running best of the split search: the `split` and `rmse` entries of
the Python `best` dict (the fitted models `mL`/`mR` it also carries are
external sklearn objects). -/
structure BestCand where
  split : ℤ
  rmse : ℚ
deriving DecidableEq, Repr

/-- Candidate validity: `fit_piecewise_cutangle` (lines 80-88) returns
`None` — and the candidate is skipped — iff the strictly-below or the
at-or-above subset of the training cut angles has fewer than `minSide`
elements. -/
def validSplit (cuts : List ℚ) (minSide : ℕ) (c : ℤ) : Prop :=
  minSide ≤ (cuts.filter (fun x => decide (x < (c : ℚ)))).length ∧
  minSide ≤ (cuts.filter (fun x => decide (¬ x < (c : ℚ)))).length

instance (cuts : List ℚ) (minSide : ℕ) (c : ℤ) :
    Decidable (validSplit cuts minSide c) := by
  rw [validSplit]; infer_instance

/-- One iteration of the candidate loop (lines 349-362): skip an invalid
candidate, otherwise replace the running best iff
`best is None or score < best["rmse"]`. -/
def splitSearchStep (cuts : List ℚ) (score : ℤ → ℚ) (minSide : ℕ)
    (best : Option BestCand) (c : ℤ) : Option BestCand :=
  if ¬ validSplit cuts minSide c then best
  else
    match best with
    | none => some ⟨c, score c⟩
    | some b => if score c < b.rmse then some ⟨c, score c⟩ else best

/-- The full candidate loop over the threshold grid. -/
def splitSearch (cuts : List ℚ) (score : ℤ → ℚ) (minSide : ℕ)
    (cands : List ℤ) : Option BestCand :=
  cands.foldl (splitSearchStep cuts score minSide) none

lemma splitSearch_foldl_some (cuts : List ℚ) (score : ℤ → ℚ) (minSide : ℕ) :
    ∀ (cands : List ℤ) (b0 : BestCand),
      ∃ b : BestCand,
        cands.foldl (splitSearchStep cuts score minSide) (some b0) = some b ∧
        b.rmse ≤ b0.rmse ∧
        (∀ c ∈ cands, validSplit cuts minSide c → b.rmse ≤ score c) ∧
        (b = b0 ∨ ∃ pre post, cands = pre ++ b.split :: post ∧
          validSplit cuts minSide b.split ∧ b.rmse = score b.split ∧
          b.rmse < b0.rmse ∧
          ∀ c ∈ pre, validSplit cuts minSide c → b.rmse < score c) := by
  intro cands
  induction cands with
  | nil => intro b0; exact ⟨b0, rfl, le_rfl, by simp, Or.inl rfl⟩
  | cons c rest ih =>
      intro b0
      by_cases hv : validSplit cuts minSide c
      · by_cases hlt : score c < b0.rmse
        · obtain ⟨b, hb, hle, hall, hdec⟩ := ih ⟨c, score c⟩
          refine ⟨b, ?_, ?_, ?_, ?_⟩
          · rw [List.foldl_cons, splitSearchStep, if_neg (by simpa using hv)]
            simpa [hlt] using hb
          · exact hle.trans hlt.le
          · intro c' hc' hv'
            rcases List.mem_cons.mp hc' with rfl | hc'
            · exact hle
            · exact hall c' hc' hv'
          · rcases hdec with rfl | ⟨pre, post, hsplit, hvb, hsc, hblt, hpre⟩
            · exact Or.inr ⟨[], rest, by simp, hv, rfl, hlt, by simp⟩
            · refine Or.inr ⟨c :: pre, post, by simp [hsplit], hvb, hsc,
                lt_trans hblt hlt, ?_⟩
              intro c' hc' hv'
              rcases List.mem_cons.mp hc' with rfl | hc'
              · exact hblt
              · exact hpre c' hc' hv'
        · obtain ⟨b, hb, hle, hall, hdec⟩ := ih b0
          refine ⟨b, ?_, hle, ?_, ?_⟩
          · rw [List.foldl_cons, splitSearchStep, if_neg (by simpa using hv)]
            simpa [hlt] using hb
          · intro c' hc' hv'
            rcases List.mem_cons.mp hc' with rfl | hc'
            · exact le_trans hle (not_lt.mp hlt)
            · exact hall c' hc' hv'
          · rcases hdec with rfl | ⟨pre, post, hsplit, hvb, hsc, hblt, hpre⟩
            · exact Or.inl rfl
            · refine Or.inr ⟨c :: pre, post, by simp [hsplit], hvb, hsc, hblt, ?_⟩
              intro c' hc' hv'
              rcases List.mem_cons.mp hc' with rfl | hc'
              · exact lt_of_lt_of_le hblt (not_lt.mp hlt)
              · exact hpre c' hc' hv'
      · obtain ⟨b, hb, hle, hall, hdec⟩ := ih b0
        refine ⟨b, ?_, hle, ?_, ?_⟩
        · rw [List.foldl_cons, splitSearchStep, if_pos (by simpa using hv)]
          exact hb
        · intro c' hc' hv'
          rcases List.mem_cons.mp hc' with rfl | hc'
          · exact absurd hv' hv
          · exact hall c' hc' hv'
        · rcases hdec with rfl | ⟨pre, post, hsplit, hvb, hsc, hblt, hpre⟩
          · exact Or.inl rfl
          · refine Or.inr ⟨c :: pre, post, by simp [hsplit], hvb, hsc, hblt, ?_⟩
            intro c' hc' hv'
            rcases List.mem_cons.mp hc' with rfl | hc'
            · exact absurd hv' hv
            · exact hpre c' hc' hv'

lemma splitSearch_spec (cuts : List ℚ) (score : ℤ → ℚ) (minSide : ℕ) :
    ∀ (cands : List ℤ),
      (splitSearch cuts score minSide cands = none ↔
        ∀ c ∈ cands, ¬ validSplit cuts minSide c) ∧
      (∀ b, splitSearch cuts score minSide cands = some b →
        ∃ pre post, cands = pre ++ b.split :: post ∧
          validSplit cuts minSide b.split ∧ b.rmse = score b.split ∧
          (∀ c ∈ pre, validSplit cuts minSide c → b.rmse < score c) ∧
          (∀ c ∈ cands, validSplit cuts minSide c → b.rmse ≤ score c)) := by
  intro cands
  induction cands with
  | nil => exact ⟨by simp [splitSearch], by simp [splitSearch]⟩
  | cons c rest ih =>
      by_cases hv : validSplit cuts minSide c
      · have hfold : splitSearch cuts score minSide (c :: rest)
            = rest.foldl (splitSearchStep cuts score minSide) (some ⟨c, score c⟩) := by
          rw [splitSearch, List.foldl_cons, splitSearchStep, if_neg (by simpa using hv)]
        obtain ⟨b, hb, hle, hall, hdec⟩ :=
          splitSearch_foldl_some cuts score minSide rest ⟨c, score c⟩
        constructor
        · rw [hfold, hb]
          constructor
          · intro h
            exact absurd h (by simp)
          · intro h
            exact absurd hv (h c (List.mem_cons_self c rest))
        · intro b' hb'
          rw [hfold, hb] at hb'
          obtain rfl : b = b' := by injection hb'
          rcases hdec with rfl | ⟨pre, post, hsplit, hvb, hsc, hblt, hpre⟩
          · refine ⟨[], rest, by simp, hv, rfl, by simp, ?_⟩
            intro c' hc' hv'
            rcases List.mem_cons.mp hc' with rfl | hc'
            · exact le_rfl
            · exact hall c' hc' hv'
          · refine ⟨c :: pre, post, by simp [hsplit], hvb, hsc, ?_, ?_⟩
            · intro c' hc' hv'
              rcases List.mem_cons.mp hc' with rfl | hc'
              · exact hblt
              · exact hpre c' hc' hv'
            · intro c' hc' hv'
              rcases List.mem_cons.mp hc' with rfl | hc'
              · exact le_of_lt hblt
              · exact hall c' hc' hv'
      · have hfold : splitSearch cuts score minSide (c :: rest)
            = splitSearch cuts score minSide rest := by
          rw [splitSearch, List.foldl_cons, splitSearchStep, if_pos (by simpa using hv),
            splitSearch]
        constructor
        · rw [hfold, ih.1]
          constructor
          · intro h c' hc'
            rcases List.mem_cons.mp hc' with rfl | hc'
            · exact hv
            · exact h c' hc'
          · intro h c' hc'
            exact h c' (List.mem_cons_of_mem c hc')
        · intro b hb
          rw [hfold] at hb
          obtain ⟨pre, post, hsplit, hvb, hsc, hpre, hall⟩ := ih.2 b hb
          refine ⟨c :: pre, post, by simp [hsplit], hvb, hsc, ?_, ?_⟩
          · intro c' hc' hv'
            rcases List.mem_cons.mp hc' with rfl | hc'
            · exact absurd hv' hv
            · exact hpre c' hc' hv'
          · intro c' hc' hv'
            rcases List.mem_cons.mp hc' with rfl | hc'
            · exact absurd hv' hv
            · exact hall c' hc' hv'

/-- C6: over the candidate grid `range(lo, hi + 1, 1)` — exactly the
integers of the inclusive range `[lo, hi]` — the split search of
build_angle_model_split.py skips every candidate for which the
strictly-below or at-or-above training subset is smaller than `minSide`;
it returns `None` (the bracket is then excluded, line 364) iff no candidate
is valid; and any returned best candidate is a valid candidate achieving
the minimum held-out RMSE among valid candidates, with its recorded `rmse`
equal to its score, and ties broken in favour of the lowest threshold. -/
theorem C6_split_search (cuts : List ℚ) (score : ℤ → ℚ) (minSide : ℕ)
    (lo hi : ℤ) :
    (∀ c : ℤ, c ∈ pyRange lo (hi + 1) 1 ↔ lo ≤ c ∧ c ≤ hi) ∧
    (splitSearch cuts score minSide (pyRange lo (hi + 1) 1) = none ↔
      ∀ c : ℤ, lo ≤ c → c ≤ hi → ¬ validSplit cuts minSide c) ∧
    (∀ b, splitSearch cuts score minSide (pyRange lo (hi + 1) 1) = some b →
      (lo ≤ b.split ∧ b.split ≤ hi) ∧ validSplit cuts minSide b.split ∧
      b.rmse = score b.split ∧
      (∀ c : ℤ, lo ≤ c → c ≤ hi → validSplit cuts minSide c →
        b.rmse ≤ score c) ∧
      (∀ c : ℤ, lo ≤ c → c ≤ hi → validSplit cuts minSide c →
        score c = b.rmse → b.split ≤ c)) := by
  obtain ⟨hnone, hsome⟩ := splitSearch_spec cuts score minSide (pyRange lo (hi + 1) 1)
  refine ⟨fun c => mem_pyRange_one, ?_, ?_⟩
  · rw [hnone]
    constructor
    · intro h c hlo hhi
      exact h c (mem_pyRange_one.mpr ⟨hlo, hhi⟩)
    · intro h c hc
      obtain ⟨hlo, hhi⟩ := mem_pyRange_one.mp hc
      exact h c hlo hhi
  · intro b hb
    obtain ⟨pre, post, hsplit, hvb, hsc, hpre, hall⟩ := hsome b hb
    have hmemb : b.split ∈ pyRange lo (hi + 1) 1 := by
      rw [hsplit]
      exact List.mem_append.mpr (Or.inr (List.mem_cons_self _ _))
    refine ⟨mem_pyRange_one.mp hmemb, hvb, hsc, ?_, ?_⟩
    · intro c hlo hhi hvc
      exact hall c (mem_pyRange_one.mpr ⟨hlo, hhi⟩) hvc
    · intro c hlo hhi hvc heq
      have hc : c ∈ pyRange lo (hi + 1) 1 := mem_pyRange_one.mpr ⟨hlo, hhi⟩
      rw [hsplit] at hc
      rcases List.mem_append.mp hc with hcpre | hcpost
      · exact absurd heq (by
          have := hpre c hcpre hvc
          exact fun h => absurd (h ▸ this) (lt_irrefl _))
      · rcases List.mem_cons.mp hcpost with rfl | hcpost
        · exact le_rfl
        · have hpw := pyRange_pairwise (a := lo) (b := hi + 1) Nat.one_pos
          rw [hsplit, List.pairwise_append] at hpw
          have := hpw.2.2
          have hlt := (List.pairwise_cons.mp hpw.2.1).1 c hcpost
          exact le_of_lt hlt

/-- Witness for C6 on a concrete search: cut angles `[0, 2]`, minimum one
sample per side, score `c ↦ c`, candidate grid `[1, 3]`; the search selects
threshold `1` with RMSE `1`, and the theorem's hypotheses are discharged by
evaluating the fold. -/
theorem C6_split_search_witness :
    (((1 : ℤ) ≤ 1 ∧ (1 : ℤ) ≤ 3) ∧ validSplit [0, 2] 1 1 ∧
      (BestCand.mk 1 1).rmse = ((1 : ℤ) : ℚ) ∧
      (∀ c : ℤ, 1 ≤ c → c ≤ 3 → validSplit [0, 2] 1 c →
        (BestCand.mk 1 1).rmse ≤ (c : ℚ)) ∧
      (∀ c : ℤ, 1 ≤ c → c ≤ 3 → validSplit [0, 2] 1 c →
        (c : ℚ) = (BestCand.mk 1 1).rmse → (1 : ℤ) ≤ c)) :=
  (C6_split_search [0, 2] (fun c => (c : ℚ)) 1 1 3).2.2 ⟨1, 1⟩ (by decide)

/-! ## Automatic power brackets

`make_brackets_auto` of build_angle_model_split.py (lines 69-77): take
`lo = np.min(powers)` and `hi = np.max(powers)`; if `hi <= lo` return the
single bracket `[(lo, hi + 1e-9)]`; otherwise cut `[lo, hi]` into `n`
equal-width half-open intervals using `np.linspace(lo, hi, n + 1)` and nudge
the last upper bound up by `1e-9`.  `main` (line 336) routes a sample into
a bracket via `(p_all >= pmin) & (p_all < pmax)`. -/

/-- The nudge `1e-9`. -/
def EPS9 : ℚ := 1 / 10 ^ 9

/-- `np.min` over a nonempty array (numpy raises on an empty one; `main`
aborts below 200 rows, so the empty default 0 is never reached). -/
def npMin : List ℚ → ℚ
  | [] => 0
  | x :: xs => xs.foldl min x

/-- `np.max` over a nonempty array. -/
def npMax : List ℚ → ℚ
  | [] => 0
  | x :: xs => xs.foldl max x

/-- `np.linspace(lo, hi, n + 1)` evaluated at index `j`:
`lo + (hi - lo) * j / n`. -/
def bracketEdges (lo hi : ℚ) (n : ℕ) (j : ℕ) : ℚ := lo + (hi - lo) * j / n

/-- `brackets[-1] = (brackets[-1][0], brackets[-1][1] + 1e-9)` (line 76):
replace the last element's upper bound by its nudged value.  For the empty
list (`n = 0`) the Python code would raise `IndexError`; the model returns
`[]` there (the configured `AUTO_BRACKETS_N` is 55). -/
def nudgeLast : List (ℚ × ℚ) → List (ℚ × ℚ)
  | [] => []
  | [b] => [(b.1, b.2 + EPS9)]
  | b :: bs => b :: nudgeLast bs

/-- `make_brackets_auto(powers, n)` (lines 69-77). -/
def make_brackets_auto (powers : List ℚ) (n : ℕ) : List (ℚ × ℚ) :=
  if npMax powers ≤ npMin powers then [(npMin powers, npMax powers + EPS9)]
  else
    nudgeLast ((List.range n).map
      (fun i => (bracketEdges (npMin powers) (npMax powers) n i,
                 bracketEdges (npMin powers) (npMax powers) n (i + 1))))

/-- Sample-to-bracket routing `(p >= pmin) & (p < pmax)` (line 336). -/
def inBracket (p : ℚ) (b : ℚ × ℚ) : Prop := b.1 ≤ p ∧ p < b.2

lemma foldl_min_le : ∀ (xs : List ℚ) (a : ℚ), xs.foldl min a ≤ a ∧
    ∀ p ∈ xs, xs.foldl min a ≤ p := by
  intro xs
  induction xs with
  | nil => intro a; exact ⟨le_rfl, by simp⟩
  | cons x t ih =>
      intro a
      obtain ⟨h1, h2⟩ := ih (min a x)
      refine ⟨le_trans h1 (min_le_left a x), ?_⟩
      intro p hp
      rcases List.mem_cons.mp hp with rfl | hp
      · exact le_trans h1 (min_le_right a p)
      · exact h2 p hp

lemma le_foldl_max : ∀ (xs : List ℚ) (a : ℚ), a ≤ xs.foldl max a ∧
    ∀ p ∈ xs, p ≤ xs.foldl max a := by
  intro xs
  induction xs with
  | nil => intro a; exact ⟨le_rfl, by simp⟩
  | cons x t ih =>
      intro a
      obtain ⟨h1, h2⟩ := ih (max a x)
      refine ⟨le_trans (le_max_left a x) h1, ?_⟩
      intro p hp
      rcases List.mem_cons.mp hp with rfl | hp
      · exact le_trans (le_max_right a p) h1
      · exact h2 p hp

lemma npMin_le {powers : List ℚ} {p : ℚ} (hp : p ∈ powers) : npMin powers ≤ p := by
  cases powers with
  | nil => cases hp
  | cons x xs =>
      rcases List.mem_cons.mp hp with rfl | hp
      · exact (foldl_min_le xs p).1
      · exact (foldl_min_le xs x).2 p hp

lemma le_npMax {powers : List ℚ} {p : ℚ} (hp : p ∈ powers) : p ≤ npMax powers := by
  cases powers with
  | nil => cases hp
  | cons x xs =>
      rcases List.mem_cons.mp hp with rfl | hp
      · exact (le_foldl_max xs p).1
      · exact (le_foldl_max xs x).2 p hp

lemma bracketEdges_mono {lo hi : ℚ} {n : ℕ} (hlh : lo < hi) (hn : 0 < n)
    {j k : ℕ} (h : j ≤ k) : bracketEdges lo hi n j ≤ bracketEdges lo hi n k := by
  rw [bracketEdges, bracketEdges]
  have hn' : (0 : ℚ) < n := by exact_mod_cast hn
  have hj : (j : ℚ) ≤ k := by exact_mod_cast h
  gcongr
  linarith

lemma bracketEdges_strict_mono {lo hi : ℚ} {n : ℕ} (hlh : lo < hi) (hn : 0 < n)
    {j k : ℕ} (h : j < k) : bracketEdges lo hi n j < bracketEdges lo hi n k := by
  rw [bracketEdges, bracketEdges]
  have hn' : (0 : ℚ) < n := by exact_mod_cast hn
  have hj : (j : ℚ) < k := by exact_mod_cast h
  have : (hi - lo) * j < (hi - lo) * k := by
    apply mul_lt_mul_of_pos_left hj
    linarith
  apply add_lt_add_left
  exact div_lt_div_of_pos_right this hn'

lemma bracketEdges_zero {lo hi : ℚ} {n : ℕ} : bracketEdges lo hi n 0 = lo := by
  rw [bracketEdges]
  ring

lemma bracketEdges_last {lo hi : ℚ} {n : ℕ} (hn : 0 < n) :
    bracketEdges lo hi n n = hi := by
  rw [bracketEdges]
  have hn' : (n : ℚ) ≠ 0 := by
    exact_mod_cast Nat.pos_iff_ne_zero.mp hn
  field_simp

lemma nudgeLast_concat : ∀ (l : List (ℚ × ℚ)) (x : ℚ × ℚ),
    nudgeLast (l ++ [x]) = l ++ [(x.1, x.2 + EPS9)] := by
  intro l
  induction l with
  | nil => intro x; rfl
  | cons b bs ih =>
      intro x
      cases bs with
      | nil => rfl
      | cons c cs =>
          show nudgeLast (b :: (c :: cs ++ [x])) = _
          rw [show nudgeLast (b :: (c :: cs ++ [x]))
              = b :: nudgeLast (c :: cs ++ [x]) from rfl, ih x]
          rfl

lemma make_brackets_auto_eq {powers : List ℚ} {n : ℕ} (hn : 0 < n)
    (hlh : npMin powers < npMax powers) :
    make_brackets_auto powers n
      = (List.range (n - 1)).map
          (fun i => (bracketEdges (npMin powers) (npMax powers) n i,
                     bracketEdges (npMin powers) (npMax powers) n (i + 1)))
        ++ [(bracketEdges (npMin powers) (npMax powers) n (n - 1),
             bracketEdges (npMin powers) (npMax powers) n n + EPS9)] := by
  rw [make_brackets_auto]
  rw [if_neg (by exact not_le.mpr hlh)]
  have hsplit : List.range n = List.range (n - 1) ++ [n - 1] := by
    conv_lhs => rw [show n = (n - 1) + 1 by omega]
    rw [List.range_succ]
  rw [hsplit, List.map_append, List.map_singleton, nudgeLast_concat,
    show n - 1 + 1 = n by omega]

/-- C7 (amended): with `n > 0` brackets requested, if all powers are equal
(`max ≤ min`) the code produces the single epsilon-width bracket
`[(lo, hi + 1e-9)]`, which contains every sample; otherwise it produces
exactly `n` half-open brackets spanning `[min(power), max(power)]` — bracket
`i` starts at `linspace` edge `i`, each has width `(hi-lo)/n` except the
last, whose upper bound is nudged up by `1e-9` — and every sample's power
(including the maximum) falls in exactly one bracket. -/
theorem C7_auto_brackets (powers : List ℚ) (n : ℕ) (hn : 0 < n) :
    (npMax powers ≤ npMin powers →
      make_brackets_auto powers n = [(npMin powers, npMax powers + EPS9)] ∧
      ∀ p ∈ powers, inBracket p (npMin powers, npMax powers + EPS9)) ∧
    (npMin powers < npMax powers →
      (make_brackets_auto powers n).length = n ∧
      (∀ i, i < n → ((make_brackets_auto powers n).getD i (0, 0)).1
          = bracketEdges (npMin powers) (npMax powers) n i) ∧
      (∀ i, i < n → ((make_brackets_auto powers n).getD i (0, 0)).2
            - ((make_brackets_auto powers n).getD i (0, 0)).1
          = (npMax powers - npMin powers) / n
            + (if i = n - 1 then EPS9 else 0)) ∧
      (∀ p ∈ powers, ∃ i,
        (i < n ∧ inBracket p ((make_brackets_auto powers n).getD i (0, 0))) ∧
        ∀ j, j < n → inBracket p ((make_brackets_auto powers n).getD j (0, 0))
          → j = i)) := by
  set lo := npMin powers with hlo_def
  set hi := npMax powers with hhi_def
  constructor
  · intro hle
    constructor
    · rw [make_brackets_auto, if_pos hle]
    · intro p hp
      refine ⟨npMin_le hp, ?_⟩
      show p < hi + EPS9
      have h1 : p ≤ hi := le_npMax hp
      have h2 : (0 : ℚ) < EPS9 := by norm_num [EPS9]
      linarith
  · intro hlh
    have hB := make_brackets_auto_eq hn hlh
    have hgetD : ∀ i, i < n → (make_brackets_auto powers n).getD i (0, 0)
        = (bracketEdges lo hi n i,
           bracketEdges lo hi n (i + 1) + (if i = n - 1 then EPS9 else 0)) := by
      intro i hi_n
      rw [hB, List.getD_eq_getElem?_getD]
      rcases lt_or_ge i (n - 1) with hcase | hcase
      · rw [List.getElem?_append_left (by simpa using hcase)]
        rw [List.getElem?_map, List.getElem?_range hcase]
        simp [show ¬ i = n - 1 by omega]
      · have hieq : i = n - 1 := by omega
        subst hieq
        rw [List.getElem?_append_right (by simp)]
        rw [show n - 1 + 1 = n by omega]
        simp
    have hwidth : ∀ i, i < n →
        ((make_brackets_auto powers n).getD i (0, 0)).2
          - ((make_brackets_auto powers n).getD i (0, 0)).1
        = (hi - lo) / n + (if i = n - 1 then EPS9 else 0) := by
      intro i hi_n
      rw [hgetD i hi_n]
      simp only []
      rw [bracketEdges, bracketEdges]
      push_cast
      ring
    have hlen : (make_brackets_auto powers n).length = n := by
      rw [hB]
      simp
      omega
    refine ⟨hlen, fun i hi_n => by rw [hgetD i hi_n], hwidth, ?_⟩
    -- membership: every power lands in exactly one bracket
    intro p hp
    have hplo : lo ≤ p := npMin_le hp
    have hphi : p ≤ hi := le_npMax hp
    have hfind : ∃ i, i < n ∧ bracketEdges lo hi n i ≤ p
        ∧ p < bracketEdges lo hi n (i + 1) + (if i = n - 1 then EPS9 else 0) := by
      rcases lt_or_eq_of_le hphi with hplt | hpeq
      · -- p < hi = edge n : find the half-open linspace cell containing p
        have haux : ∀ m, m ≤ n → p < bracketEdges lo hi n m →
            ∃ i, i < m ∧ bracketEdges lo hi n i ≤ p
              ∧ p < bracketEdges lo hi n (i + 1) := by
          intro m
          induction m with
          | zero =>
              intro _ hcontr
              rw [bracketEdges_zero] at hcontr
              exact absurd hcontr (not_lt.mpr hplo)
          | succ m ih =>
              intro hm hcontr
              rcases le_or_lt (bracketEdges lo hi n m) p with hcase | hcase
              · exact ⟨m, Nat.lt_succ_self m, hcase, hcontr⟩
              · obtain ⟨i, h1, h2, h3⟩ := ih (by omega) hcase
                exact ⟨i, by omega, h2, h3⟩
        have hpn : p < bracketEdges lo hi n n := by
          rw [bracketEdges_last hn]
          exact hplt
        obtain ⟨i, h1, h2, h3⟩ := haux n le_rfl hpn
        refine ⟨i, h1, h2, ?_⟩
        rcases eq_or_ne i (n - 1) with he | he
        · rw [if_pos he]
          have : (0 : ℚ) < EPS9 := by norm_num [EPS9]
          linarith
        · rw [if_neg he]
          simpa using h3
      · -- p = hi : the last (nudged) bracket absorbs the maximum
        refine ⟨n - 1, by omega, ?_, ?_⟩
        · have hmono := bracketEdges_mono hlh hn (show n - 1 ≤ n by omega)
          rw [bracketEdges_last hn] at hmono
          rw [hpeq]
          exact hmono
        · rw [if_pos rfl]
          have h1 : bracketEdges lo hi n ((n - 1) + 1) = hi := by
            rw [show (n - 1) + 1 = n by omega, bracketEdges_last hn]
          rw [h1]
          have : (0 : ℚ) < EPS9 := by norm_num [EPS9]
          linarith
    obtain ⟨i, hi_n, hlow, hhigh⟩ := hfind
    refine ⟨i, ⟨hi_n, ?_⟩, ?_⟩
    · rw [hgetD i hi_n]
      exact ⟨hlow, hhigh⟩
    · intro j hj_n hj_in
      rw [hgetD j hj_n] at hj_in
      obtain ⟨hj1, hj2⟩ := hj_in
      dsimp only at hj1 hj2
      by_contra hne
      rcases lt_or_gt_of_ne hne with hlt | hgt
      · -- j < i : p < upper j ≤ lower i ≤ p
        have hup : bracketEdges lo hi n (j + 1) + (if j = n - 1 then EPS9 else 0)
            ≤ bracketEdges lo hi n i := by
          rw [if_neg (by omega)]
          simpa using bracketEdges_mono hlh hn (show j + 1 ≤ i by omega)
        linarith
      · -- i < j : p < upper i ≤ lower j ≤ p
        have hup : bracketEdges lo hi n (i + 1) + (if i = n - 1 then EPS9 else 0)
            ≤ bracketEdges lo hi n j := by
          rw [if_neg (by omega)]
          simpa using bracketEdges_mono hlh hn (show i + 1 ≤ j by omega)
        linarith

/-- Counterexample to C7 as stated: for a dataset whose powers are all
equal (here `[5, 5]`) the `hi <= lo` branch of `make_brackets_auto`
produces a *single* epsilon-width bracket, not the `N = 55` configured
equal-width intervals. -/
theorem C7_counterexample :
    (make_brackets_auto [5, 5] 55).length = 1 ∧ (1 : ℕ) ≠ 55 := by
  constructor
  · norm_num [make_brackets_auto, npMin, npMax]
  · decide

/-- Witness for C7 (amended) at powers `[0, 10]` and `n = 2`: two brackets
are produced and the maximum sample `10` falls in exactly one of them. -/
theorem C7_auto_brackets_witness :
    (make_brackets_auto [0, 10] 2).length = 2 ∧
    (∃ i, (i < 2 ∧ inBracket 10 ((make_brackets_auto [0, 10] 2).getD i (0, 0))) ∧
      ∀ j, j < 2 → inBracket 10 ((make_brackets_auto [0, 10] 2).getD j (0, 0))
        → j = i) :=
  have h := (C7_auto_brackets [0, 10] 2 (by norm_num)).2
    (by norm_num [npMin, npMax])
  ⟨h.1, h.2.2.2 10 (by norm_num)⟩

/-! ## The JS emitter of the adaptive variant

`build_js` of build_angle_model_split.py (lines 142-289) renders the fitted
piecewise model to JavaScript source, line by line, and joins with newlines.
Python number formatting is modelled on the rational value's numerator and
denominator directly. -/

/-- Left-pad with zeros to `len` digits. -/
def padZeros (s : String) (len : Nat) : String :=
  String.mk (List.replicate (len - s.length) '0') ++ s

/-- Render an already-scaled integer `round(q * 10^prec)` with `prec`
fractional digits. -/
def fmtScaled (scaled : ℤ) (prec : Nat) : String :=
  (if scaled < 0 then "-" else "")
    ++ toString (scaled.natAbs / 10 ^ prec) ++ "."
    ++ padZeros (toString (scaled.natAbs % 10 ^ prec)) prec

/-- Python's fixed-point format `f"{q:.{prec}f}"`: `round(q * 10^prec)`
rendered with `prec` fractional digits.  `round(x) = ⌊x + 1/2⌋` is computed
as `(2·num·10^prec + den) fdiv (2·den)` on the reduced fraction.  (CPython
rounds exact halves to even; the fitted values formatted here are never
exact halves.) -/
def fmtFixed (q : ℚ) (prec : Nat) : String :=
  fmtScaled ((2 * q.num * 10 ^ prec + q.den).fdiv (2 * q.den)) prec

/-- Strip trailing zeros (and a then-trailing decimal point), as `%g`
does. -/
def trimTrailingZeros (s : String) : String :=
  String.mk
    (let t := s.toList.reverse.dropWhile (fun c => c == '0')
     if t.head? = some '.' then t.tail.reverse else t.reverse)

/-- Python's `f"{q:g}"` for the magnitudes this tool emits (clip values,
metrics): integral values render with no fractional part, others as a
trimmed fixed-point rendering. -/
def fmtG (q : ℚ) : String :=
  if q.den = 1 then toString q.num else trimTrailingZeros (fmtFixed q 6)

/-- Python's `f"{q:.12g}"` (coefficients), same integral shortcut. -/
def fmtG12 (q : ℚ) : String :=
  if q.den = 1 then toString q.num else trimTrailingZeros (fmtFixed q 12)

/-- Python's `str(float)` (bracket bounds in the generated comments and
conditions): integral values render as `n.0`, others as a trimmed
fixed-point rendering. -/
def pyFloatStr (q : ℚ) : String :=
  if q.den = 1 then toString q.num ++ ".0" else trimTrailingZeros (fmtFixed q 12)

/-- `str.split(sep)` for a single-character separator. -/
def splitCharAux (sep : Char) : List Char → List Char → List String
  | [], acc => [String.mk acc.reverse]
  | c :: cs, acc =>
      if c = sep then String.mk acc.reverse :: splitCharAux sep cs []
      else splitCharAux sep cs (c :: acc)

/-- `term.split(sep)` on a string. -/
def splitOnChar (sep : Char) (s : String) : List String :=
  splitCharAux sep s.toList []

/-- `xmap.get(tok, tok)` of `js_from_poly_ridge.repl_var` (lines 117-118). -/
def repl_var (xmap : List (String × String)) (tok : String) : String :=
  (xmap.lookup tok).getD tok

/-- `term_to_js` (lines 120-132): `"1"` becomes `"1.0"`; otherwise the
space-separated factors are mapped (`x^k` to `Math.pow(x, k)`, plain tokens
through `repl_var`) and joined with `" * "` inside parentheses. -/
def term_to_js (xmap : List (String × String)) (term : String) : String :=
  if term = "1" then "1.0"
  else
    "(" ++ String.intercalate " * "
      ((splitOnChar ' ' term).map (fun p =>
        if p.toList.contains '^' then
          match splitOnChar '^' p with
          | [base, pw] =>
              "Math.pow(" ++ repl_var xmap base ++ ", "
                ++ toString (pw.toNat?.getD 0) ++ ")"
          | _ => p
        else repl_var xmap p)) ++ ")"

/-- Apply `f` to the last element (`lines[-1] = f(lines[-1])`). -/
def mapLast (f : String → String) : List String → List String
  | [] => []
  | [a] => [f a]
  | a :: b :: rest => a :: mapLast f (b :: rest)

/-- `line.rstrip(" +")`. -/
def rstripSpacePlus (s : String) : String :=
  String.mk (s.toList.reverse.dropWhile (fun c => c == ' ' || c == '+')).reverse

/-- `js_from_poly_ridge` (lines 109-139): one coefficient line per term,
the trailing `" +"` stripped from the last line, wrapped in a function
returning the sum. -/
def js_from_poly_ridge (coeffs : List (String × ℚ)) (funcName : String)
    (xmap : List (String × String)) : String :=
  String.intercalate "\n"
    ((mapLast rstripSpacePlus
      (["function " ++ funcName ++ "(cutAngle, power) \x7b", "  return ("]
        ++ coeffs.map (fun nc =>
            "    " ++ fmtG12 nc.2 ++ " * " ++ term_to_js xmap nc.1 ++ " +")))
      ++ ["  );", "\x7d"])

/-- One per-bracket fitted result as `main` assembles it (lines 381-395):
bracket index, power range, chosen split, held-out RMSE, sample count, and
the two per-side coefficient lists (sklearn feature name, coefficient)
extracted from the fitted ridge models. -/
structure BracketResult where
  bi : Nat
  pmin : ℚ
  pmax : ℚ
  split : ℤ
  rmse : ℚ
  n : Nat
  mL : List (String × ℚ)
  mR : List (String × ℚ)

/-- The pooled holdout metrics dict (lines 409-418). -/
structure MetricsOverall where
  r2 : ℚ
  rmse : ℚ
  mae : ℚ

/-- `xmap = {"x0": "cutAngle", "x1": "power"}` (line 172). -/
def xmapSplit : List (String × String) := [("x0", "cutAngle"), ("x1", "power")]

/-- The clamp-and-return block emitted inside each routing branch
(lines 212-218 and 228-234 and 238-244). -/
def emitBranchBody (bi : Nat) (split : ℤ) (clipVal : ℚ) : List String :=
  ["    const split = " ++ toString split ++ ";",
   "    let y = (cutAngle < split)",
   "      ? __predictAngleError_b" ++ toString bi ++ "_left(cutAngle, power)",
   "      : __predictAngleError_b" ++ toString bi ++ "_right(cutAngle, power);",
   "    if (y > " ++ fmtG clipVal ++ ") y = " ++ fmtG clipVal ++ ";",
   "    else if (y < -" ++ fmtG clipVal ++ ") y = -" ++ fmtG clipVal ++ ";",
   "    return y;"]

/-- The `out` list of `build_js` (lines 142-289), one element per
`out.append`, with `now` the preformatted `datetime.utcnow()` string of
line 150. -/
def buildJsLines (results : List BracketResult) (inputFilename : String)
    (nSamplesTotal : Nat) (polyDegree : Nat) (clipVal : ℚ)
    (metrics : MetricsOverall) (now : String) : List String :=
  ["/* eslint-disable no-var, prefer-const */",
   "/**",
   " * Auto-generated angle error model.",
   " *",
   " * Trained on: " ++ inputFilename,
   " * Features: cutAngle, spinY, power",
   " * Model: piecewise PolynomialFeatures(degree=" ++ toString polyDegree
     ++ ") + Ridge",
   " * Output clip: [-" ++ fmtG clipVal ++ ", " ++ fmtG clipVal ++ "] degrees",
   " * Generated (UTC): " ++ now,
   " * Metrics (overall holdout test, random_state=42):",
   " *   rSquared: " ++ fmtFixed metrics.r2 6,
   " *   rmse: " ++ fmtFixed metrics.rmse 6,
   " *   mae: " ++ fmtFixed metrics.mae 6,
   " *",
   " * Generated by build_angle_model_nn.py",
   " */",
   ""]
  ++ (results.flatMap (fun r =>
      ["// Bracket " ++ toString r.bi ++ ": power in [" ++ pyFloatStr r.pmin
         ++ ", " ++ pyFloatStr r.pmax ++ ") (n=" ++ toString r.n ++ ", split="
         ++ toString r.split ++ ", rmse=" ++ fmtFixed r.rmse 4 ++ ")",
       js_from_poly_ridge r.mL
         ("__predictAngleError_b" ++ toString r.bi ++ "_left") xmapSplit,
       "",
       js_from_poly_ridge r.mR
         ("__predictAngleError_b" ++ toString r.bi ++ "_right") xmapSplit,
       ""]))
  ++ ["/**",
      " * Predict the angle error for a shot",
      " * @param \x7bnumber\x7d cutAngle - Cut angle in degrees (0 = straight, 90 = max)",
      " * @param \x7bnumber\x7d spinY - Vertical spin (-1 to 1, positive = topspin)",
      " * @param \x7bnumber\x7d power - Shot power",
      " * @returns \x7bnumber\x7d Predicted angle error in degrees",
      " */",
      "function predictAngleError(cutAngle, spinY, power) \x7b",
      "  // basic input sanitization (avoid NaN/Infinity propagating)",
      "  if (!Number.isFinite(cutAngle) || !Number.isFinite(spinY) || !Number.isFinite(power)) return 0;",
      "",
      "  // NOTE: spinY is accepted for compatibility but not used by this model.",
      ""]
  ++ (results.enum.flatMap (fun ir =>
      [(if ir.1 = 0 then "  if " else "  else if ")
         ++ "(power >= " ++ pyFloatStr ir.2.pmin ++ " && power < "
         ++ pyFloatStr ir.2.pmax ++ ") \x7b"]
      ++ emitBranchBody ir.2.bi ir.2.split clipVal
      ++ ["  \x7d"]))
  ++ ["  // fallback: clamp to nearest bracket"]
  ++ (match results with
      | [] => ["  return 0;"]
      | first :: rest =>
          (["  if (power < " ++ pyFloatStr first.pmin ++ ") \x7b"]
            ++ emitBranchBody first.bi first.split clipVal
            ++ ["  \x7d"])
          ++ (["  \x7b"]
            ++ emitBranchBody (rest.getLastD first).bi
                (rest.getLastD first).split clipVal
            ++ ["  \x7d"]))
  ++ ["\x7d",
      "",
      "/**",
      " * Calculate aim adjustment to compensate for predicted angle error",
      " * @param \x7bnumber\x7d cutAngle - Cut angle in degrees",
      " * @param \x7bnumber\x7d spinY - Vertical spin",
      " * @param \x7bnumber\x7d power - Shot power",
      " * @returns \x7bnumber\x7d Angle adjustment in degrees (subtract from aim)",
      " */",
      "function calculateAimAdjustment(cutAngle, spinY, power) \x7b",
      "  return predictAngleError(cutAngle, spinY, power);",
      "\x7d",
      "",
      "// Model metadata",
      "const ANGLE_MODEL_INFO = \x7b",
      "  modelType: \"piecewise_poly_ridge\",",
      "  degree: " ++ toString polyDegree ++ ",",
      "  clip: " ++ fmtG clipVal ++ ",",
      "  nSamples: " ++ toString nSamplesTotal ++ ",",
      "  features: [\"cutAngle\", \"spinY\", \"power\"],",
      "  piecewise: \x7b",
      "    brackets: ["]
  ++ (results.map (fun r =>
      "      \x7b pmin: " ++ pyFloatStr r.pmin ++ ", pmax: " ++ pyFloatStr r.pmax
        ++ ", split: " ++ toString r.split ++ ", n: " ++ toString r.n
        ++ " \x7d,"))
  ++ ["    ]",
      "  \x7d,",
      "  metrics: \x7b",
      "    rSquared: " ++ fmtFixed metrics.r2 6 ++ ",",
      "    rmse: " ++ fmtFixed metrics.rmse 6 ++ ",",
      "    mae: " ++ fmtFixed metrics.mae 6,
      "  \x7d",
      "\x7d;",
      "",
      "// Export for use in modules",
      "if (typeof module !== \"undefined\" && module.exports) \x7b",
      "  module.exports = \x7b predictAngleError, calculateAimAdjustment, ANGLE_MODEL_INFO \x7d;",
      "\x7d",
      ""]

/-- `build_js` (lines 142-289): `"\n".join(out)`. -/
def build_js (results : List BracketResult) (inputFilename : String)
    (nSamplesTotal : Nat) (polyDegree : Nat) (clipVal : ℚ)
    (metrics : MetricsOverall) (now : String) : String :=
  String.intercalate "\n"
    (buildJsLines results inputFilename nSamplesTotal polyDegree clipVal
      metrics now)

set_option maxRecDepth 16384

/-- C2 (amended): the generated source is a pure function of the fitted
results, configuration *and the generation timestamp*: the outputs of two
runs over identical input and configuration differ at most in the embedded
`Generated (UTC)` header line (line index 8 of the emitted text), and are
byte-identical exactly when the two runs format the same timestamp. -/
theorem C2_deterministic_modulo_timestamp (results : List BracketResult)
    (inputFilename : String) (nSamplesTotal polyDegree : Nat) (clipVal : ℚ)
    (metrics : MetricsOverall) (t1 t2 : String) :
    buildJsLines results inputFilename nSamplesTotal polyDegree clipVal
        metrics t2
      = (buildJsLines results inputFilename nSamplesTotal polyDegree clipVal
          metrics t1).set 8 (" * Generated (UTC): " ++ t2) := by
  rfl

/-- Counterexample to C2 as stated: two runs of the pipeline on identical
input data and identical configuration, executed one second apart, produce
different generated source text, because `build_js` embeds
`datetime.utcnow()` in the header (line 150/161). -/
theorem C2_counterexample :
    build_js [] "shots.json" 300 3 15 ⟨0, 0, 0⟩ "2025-01-01 00:00:00Z"
      ≠ build_js [] "shots.json" 300 3 15 ⟨0, 0, 0⟩ "2025-01-01 00:00:01Z" := by
  decide

/-! ## Semantics of the emitted dispatcher

The JavaScript emitted by `build_js` (wrapper, lines 195-248) is modelled
as a Lean function: a bracket is its power range, split threshold and two
per-side polynomial functions; the dispatcher checks finiteness, walks the
`if/else if` chain in emission order, falls back to the first bracket for
`power < first.pmin` and to the last bracket otherwise, and clamps every
returned prediction to `[-clip, clip]`. -/

/-- A JavaScript number at the dispatcher boundary: finite (modelled as a
rational) or non-finite (`NaN`/`±Infinity`, rejected by
`Number.isFinite`). -/
inductive JSNum where
  | fin (q : ℚ)
  | nonfinite
deriving DecidableEq, Repr

/-- One emitted bracket: its routing range `[pmin, pmax)`, its cut-angle
split, and the two per-side fitted polynomial functions
`__predictAngleError_b<i>_left/right`. -/
structure BracketFns where
  pmin : ℚ
  pmax : ℚ
  split : ℤ
  left : ℚ → ℚ → ℚ
  right : ℚ → ℚ → ℚ

/-- `if (y > clip) y = clip; else if (y < -clip) y = -clip; return y;`
(emitted lines 216-217 etc.). -/
def clampClip (clip y : ℚ) : ℚ :=
  if y > clip then clip else if y < -clip then -clip else y

/-- One emitted branch body: route by `cutAngle < split`, then clamp
(emitted lines 212-218). -/
def bracketPredict (b : BracketFns) (clip cut pw : ℚ) : ℚ :=
  clampClip clip (if cut < (b.split : ℚ) then b.left cut pw else b.right cut pw)

/-- The emitted `predictAngleError(cutAngle, spinY, power)` dispatcher
(lines 195-248): non-finite input returns 0; otherwise the `if/else if`
chain routes to the first bracket whose `[pmin, pmax)` contains `power`;
otherwise `power < first.pmin` falls back to the first bracket, and every
other unrouted power falls back to the last bracket; with no brackets at
all the dispatcher returns 0. -/
def predictAngleErrorJS (results : List BracketFns) (clip : ℚ) :
    JSNum → JSNum → JSNum → ℚ
  | .fin cut, .fin _, .fin pw =>
      match results.find? (fun b => decide (b.pmin ≤ pw ∧ pw < b.pmax)) with
      | some b => bracketPredict b clip cut pw
      | none =>
          match results with
          | [] => 0
          | b0 :: rest =>
              if pw < b0.pmin then bracketPredict b0 clip cut pw
              else bracketPredict (rest.getLastD b0) clip cut pw
  | _, _, _ => 0

/-- Modelled from the spec's words for C8 ("clamping to the nearest
bracket"): the distance from a power value to a bracket's range. -/
def bracketDist (pw : ℚ) (b : BracketFns) : ℚ :=
  if pw < b.pmin then b.pmin - pw else if b.pmax ≤ pw then pw - b.pmax else 0

/-- Modelled from the spec's words for C8: the bracket nearest to `pw`
(first-encountered on ties). -/
def nearestBracket : List BracketFns → ℚ → Option BracketFns
  | [], _ => none
  | b :: bs, pw =>
      some (bs.foldl
        (fun best c => if bracketDist pw c < bracketDist pw best then c else best) b)

/-- Modelled from the spec's words for C8: a dispatcher that routes an
in-range power normally and clamps an out-of-range power to the *nearest*
bracket. -/
def nearestBracketPredictSpec (results : List BracketFns) (clip : ℚ) :
    JSNum → JSNum → JSNum → ℚ
  | .fin cut, .fin _, .fin pw =>
      match results.find? (fun b => decide (b.pmin ≤ pw ∧ pw < b.pmax)) with
      | some b => bracketPredict b clip cut pw
      | none =>
          match nearestBracket results pw with
          | some b => bracketPredict b clip cut pw
          | none => 0
  | _, _, _ => 0

lemma clampClip_bounds {clip : ℚ} (h : 0 ≤ clip) (y : ℚ) :
    -clip ≤ clampClip clip y ∧ clampClip clip y ≤ clip := by
  rw [clampClip]
  split_ifs with h1 h2
  · constructor <;> linarith
  · constructor <;> linarith
  · constructor <;> linarith

/-- C9: for a nonnegative configured clip, the emitted predictor's output
always lies within `[-clip, clip]`, whatever the bracket models and however
large the (finite) inputs; and any non-finite input yields the neutral
default `0`, which also lies within the range. -/
theorem C9_output_clamped (results : List BracketFns) (clip : ℚ)
    (h : 0 ≤ clip) (cut spin pw : JSNum) :
    (-clip ≤ predictAngleErrorJS results clip cut spin pw ∧
      predictAngleErrorJS results clip cut spin pw ≤ clip) ∧
    ((cut = .nonfinite ∨ spin = .nonfinite ∨ pw = .nonfinite) →
      predictAngleErrorJS results clip cut spin pw = 0) := by
  have hzero : -clip ≤ (0 : ℚ) ∧ (0 : ℚ) ≤ clip := ⟨by linarith, h⟩
  cases cut with
  | nonfinite => exact ⟨hzero, fun _ => rfl⟩
  | fin c =>
      cases spin with
      | nonfinite => exact ⟨hzero, fun _ => rfl⟩
      | fin s =>
          cases pw with
          | nonfinite => exact ⟨hzero, fun _ => rfl⟩
          | fin p =>
              constructor
              · cases results with
                | nil => exact hzero
                | cons b0 rest =>
                    cases hfind : (b0 :: rest).find?
                        (fun b => decide (b.pmin ≤ p ∧ p < b.pmax)) with
                    | some b =>
                        simp only [predictAngleErrorJS, hfind]
                        exact clampClip_bounds h _
                    | none =>
                        simp only [predictAngleErrorJS, hfind]
                        by_cases hp : p < b0.pmin
                        · rw [if_pos hp]
                          exact clampClip_bounds h _
                        · rw [if_neg hp]
                          exact clampClip_bounds h _
              · intro hcontr
                rcases hcontr with h' | h' | h' <;> cases h'

/-- A concrete pathological per-side model: `cut² · 1000`. -/
def blowupBracket : BracketFns :=
  ⟨0, 100, 30, fun c _ => c * c * 1000, fun c _ => c * c * 1000⟩

/-- Witness for C9: with clip 15 (the configured `TARGET_CLIP`), a huge
finite cut angle stays clamped, and a non-finite spin yields 0. -/
theorem C9_output_clamped_witness :
    ((-15 ≤ predictAngleErrorJS [blowupBracket] 15
        (.fin 1000000) (.fin 0) (.fin 50) ∧
      predictAngleErrorJS [blowupBracket] 15
        (.fin 1000000) (.fin 0) (.fin 50) ≤ 15)) ∧
    predictAngleErrorJS [blowupBracket] 15 (.fin 0) .nonfinite (.fin 50) = 0 :=
  ⟨(C9_output_clamped [blowupBracket] 15 (by norm_num)
      (.fin 1000000) (.fin 0) (.fin 50)).1,
   (C9_output_clamped [blowupBracket] 15 (by norm_num)
      (.fin 0) .nonfinite (.fin 50)).2 (Or.inr (Or.inl rfl))⟩

/-- C8 (amended): for a finite power contained in none of the emitted
brackets, the dispatcher uses the *first* bracket when the power is below
the first bracket's lower bound and otherwise the *last* bracket (even when
an interior bracket is nearer); with no brackets it returns 0.  It is a
total function, so no out-of-range input throws or is undefined. -/
theorem C8_dispatcher_fallback (results : List BracketFns) (clip : ℚ)
    (cut spin pw : ℚ)
    (hout : ∀ b ∈ results, ¬ (b.pmin ≤ pw ∧ pw < b.pmax)) :
    (results = [] →
      predictAngleErrorJS results clip (.fin cut) (.fin spin) (.fin pw) = 0) ∧
    (∀ b0 rest, results = b0 :: rest →
      predictAngleErrorJS results clip (.fin cut) (.fin spin) (.fin pw)
        = if pw < b0.pmin then bracketPredict b0 clip cut pw
          else bracketPredict (rest.getLastD b0) clip cut pw) := by
  have hfind : results.find? (fun b => decide (b.pmin ≤ pw ∧ pw < b.pmax))
      = none := by
    rw [List.find?_eq_none]
    intro b hb
    simpa using hout b hb
  constructor
  · rintro rfl
    rfl
  · rintro b0 rest rfl
    simp only [predictAngleErrorJS, hfind]

/-- The two gap brackets of the C8 counterexample: `[0, 1)` predicting `1`
and `[10, 11)` predicting `2`. -/
def gapBracketA : BracketFns := ⟨0, 1, 30, fun _ _ => 1, fun _ _ => 1⟩

/-- See `gapBracketA`. -/
def gapBracketB : BracketFns := ⟨10, 11, 30, fun _ _ => 2, fun _ _ => 2⟩

/-- Witness for C8 (amended) at the gap power `2`: no bracket contains it,
it is not below the first bracket, so the last bracket is used. -/
theorem C8_dispatcher_fallback_witness :
    predictAngleErrorJS [gapBracketA, gapBracketB] 15
        (.fin 5) (.fin 0) (.fin 2)
      = if (2 : ℚ) < gapBracketA.pmin then bracketPredict gapBracketA 15 5 2
        else bracketPredict ([gapBracketB].getLastD gapBracketA) 15 5 2 :=
  (C8_dispatcher_fallback [gapBracketA, gapBracketB] 15 5 0 2
    (by decide)).2 gapBracketA [gapBracketB] rfl

/-- Counterexample to C8 as stated: the power `2` lies outside every
bracket of `[gapBracketA, gapBracketB]`, its *nearest* bracket is
`gapBracketA` (distance 1 versus 8), yet the emitted dispatcher uses the
last bracket `gapBracketB`: it predicts 2 where a nearest-bracket
dispatcher predicts 1. -/
theorem C8_counterexample :
    predictAngleErrorJS [gapBracketA, gapBracketB] 15
        (.fin 5) (.fin 0) (.fin 2) = 2 ∧
    nearestBracketPredictSpec [gapBracketA, gapBracketB] 15
        (.fin 5) (.fin 0) (.fin 2) = 1 ∧
    (2 : ℚ) ≠ 1 := by
  refine ⟨?_, ?_, by norm_num⟩
  · norm_num [predictAngleErrorJS, List.find?, gapBracketA, gapBracketB,
      bracketPredict, clampClip]
  · norm_num [nearestBracketPredictSpec, List.find?, nearestBracket,
      bracketDist, gapBracketA, gapBracketB, bracketPredict, clampClip]

/-! ## The flat emitter's term list and return statement

`generate_javascript` of build_angle_model.py (lines 136-162; identical
logic in build_angle_model_simple.py lines 208-232): coefficients of
magnitude below `1e-10` are skipped, each kept coefficient becomes a
`{coeff:.10f} * term` expression, and the function body is a single return
statement joining the kept expressions with `" + "` (or a multi-line layout
when more than 3 terms survive). -/

/-- The negligibility threshold `1e-10` (line 139). -/
def eps10 : ℚ := 1 / 10 ^ 10

/-- The `terms_code` list (lines 137-150): filter out negligible
coefficients, format the rest. -/
def termsCode (coeffs : List ℚ) (termNames : List String) : List String :=
  (coeffs.zip termNames).filterMap fun cn =>
    if |cn.1| < eps10 then none
    else some (if cn.2 = "1" then fmtFixed cn.1 10
      else fmtFixed cn.1 10 ++ " * "
        ++ String.intercalate " * " (splitOnChar '*' cn.2))

/-- The return statement appended to the predictor body (lines 153-160):
`"    return {" + ".join(terms_code)};\n"` for at most 3 terms, a
multi-line parenthesised sum otherwise. -/
def returnStmt (tc : List String) : String :=
  if tc.length ≤ 3 then
    "    return " ++ String.intercalate " + " tc ++ ";\n"
  else
    "    return (\n"
      ++ String.join (tc.enum.map (fun it =>
          (if it.1 = 0 then "        " else "        + ") ++ it.2 ++ "\n"))
      ++ "    );\n"

/-- C10: when every fitted coefficient has magnitude below the `1e-10`
threshold, the flat emitter still terminates and produces output, but
`terms_code` is empty and the emitted body is the return statement with an
empty expression, `"    return ;"` — no coefficient term appears at all. -/
theorem C10_all_negligible_empty_return (coeffs : List ℚ)
    (termNames : List String) (h : ∀ c ∈ coeffs, |c| < eps10) :
    termsCode coeffs termNames = [] ∧
    returnStmt (termsCode coeffs termNames) = "    return ;\n" := by
  have h1 : termsCode coeffs termNames = [] := by
    rw [termsCode, List.filterMap_eq_nil_iff]
    intro cn hcn
    rw [if_pos (h cn.1 (List.of_mem_zip hcn).1)]
  refine ⟨h1, ?_⟩
  rw [h1]
  decide

/-- Witness for C10 at the single negligible coefficient list `[0]`. -/
theorem C10_all_negligible_empty_return_witness :
    termsCode [0] ["1"] = [] ∧
    returnStmt (termsCode [0] ["1"]) = "    return ;\n" :=
  C10_all_negligible_empty_return [0] ["1"] (by norm_num [eps10])

end PoolModel
